import Mathlib

/-!
Verification of the SQLite-backed git filesystem adapter (`SqliteFS`,
"PersistentFS") and the in-memory filesystem (`MemFS`, "EphemeralFS").

Paths are modelled as `List Char` (JS strings as character sequences) and
byte buffers as `List Nat`.  The SQLite table `git_objects` is modelled as a
list of rows; the SQL statements used by the adapter (SELECT with a path
filter, SELECT ordered by `chunk_index`, DELETE by path, INSERT, INSERT OR
IGNORE, INSERT OR REPLACE) are modelled as explicit list operations.
-/

set_option autoImplicit false

namespace VibeFS

-- ============================================================
-- Definitions: data model and operations
-- ============================================================

abbrev Path := List Char

abbrev Bytes := List Nat

/-- The function `normalizePath` from `fs-adapter.ts`: strip all leading `/`, map `.` and
`./` to the empty (root) path, then strip a single leading `./` prefix. -/
def normalizePath (p : Path) : Path :=
  let s := p.dropWhile (· = '/')
  if s = ['.'] ∨ s = ['.', '/'] then []
  else if s.take 2 = ['.', '/'] then s.drop 2
  else s

/-- The function `normalize` from `memfs.ts`: strip all leading slashes. -/
def memNormalize (p : Path) : Path :=
  p.dropWhile (· = '/')

/-- Strip trailing slashes, as done by `readdir`/`mkdir`/`rmdir` via
`.replace(/\/+$/g, '')`. -/
def dropTrailingSlashes (p : Path) : Path :=
  (p.reverse.dropWhile (· = '/')).reverse

/-- JS `s.split('/')`: always returns at least one (possibly empty) part. -/
def splitOnSlash : Path → List Path
  | [] => [[]]
  | c :: rest =>
    match splitOnSlash rest with
    | [] => [[]]
    | h :: t => if c = '/' then [] :: h :: t else (c :: h) :: t

/-- JS `parts.join('/')`. -/
def joinSlash : List Path → Path
  | [] => []
  | [p] => p
  | p :: q :: rest => p ++ '/' :: joinSlash (q :: rest)

/-- Value of a base64 alphabet character, `none` for characters outside the
alphabet ('=' included). -/
def b64Val (c : Char) : Option Nat :=
  if 'A' ≤ c ∧ c ≤ 'Z' then some (c.toNat - 65)
  else if 'a' ≤ c ∧ c ≤ 'z' then some (c.toNat - 97 + 26)
  else if '0' ≤ c ∧ c ≤ '9' then some (c.toNat - 48 + 52)
  else if c = '+' then some 62
  else if c = '/' then some 63
  else none

/-- Map `b64Val` over a character list; fails if any character is invalid. -/
def sextetsOf : List Char → Option (List Nat)
  | [] => some []
  | c :: rest =>
    match b64Val c, sextetsOf rest with
    | some v, some vs => some (v :: vs)
    | _, _ => none

/-- Pack 6-bit groups into bytes: 4 sextets give 3 bytes, a trailing group of
3 gives 2 bytes, of 2 gives 1 byte; a trailing single sextet is invalid. -/
def combine4 : List Nat → Option (List Nat)
  | [] => some []
  | [_] => none
  | [a, b] => some [a * 4 + b / 16]
  | [a, b, c] => some [a * 4 + b / 16, b % 16 * 16 + c / 4]
  | a :: b :: c :: d :: rest =>
    match combine4 rest with
    | some tail => some ((a * 4 + b / 16) :: (b % 16 * 16 + c / 4) :: (c % 4 * 64 + d) :: tail)
    | none => none

/-- Number of trailing `'='` characters, as computed by the legacy-size path
in `stat` (`(row.data.match(/=+$/) || [''])[0].length`). -/
def countTrailingEq (s : List Char) : Nat :=
  (s.reverse.takeWhile (· = '=')).length

/-- Modelled from the spec: the platform `atob` base64 decoder called by
`base64ToUint8Array` in `encoding.ts` (the decoder itself is a host builtin,
not repository code).  Decodes well-formed base64 without whitespace: at most
two trailing `'='` padding characters (only when the total length is a
multiple of four), every other character from the base64 alphabet, grouped
into 6-bit values and packed into bytes. -/
def atob64 (s : List Char) : Option (List Nat) :=
  let p := countTrailingEq s
  if p > 2 then none
  else if p > 0 ∧ s.length % 4 ≠ 0 then none
  else
    match sextetsOf (s.take (s.length - p)) with
    | some vs => combine4 vs
    | none => none

/-- The `data` column: a binary blob, legacy base64 text, or NULL. -/
inductive RowData where
  | blob (bytes : Bytes)
  | text (s : List Char)
  | null
deriving DecidableEq

/-- One row of `git_objects` (schema v2). -/
structure Row where
  path : Path
  chunk_index : Nat
  parent_path : Path
  data : RowData
  is_dir : Nat
  size : Nat
  mtime : Nat
deriving DecidableEq

/-- The `git_objects` table, as a list of rows. -/
abbrev Table := List Row

/-- Error codes raised by the adapter. -/
inductive ErrCode where
  | ENOENT | EISDIR | ENOTDIR | EEXIST | EPERM | ENOTEMPTY
deriving DecidableEq

/-- A thrown value: either an errno-style error created by `makeErrno`, or a
plain `Error`/exception with only a message. -/
inductive FsErr where
  | errno (code : ErrCode)
  | error (msg : String)
deriving DecidableEq

/-- Model of `SELECT .. WHERE path = p AND chunk_index = i` (primary-key lookup,
first matching row in table order). -/
def findRow (t : Table) (p : Path) (i : Nat) : Option Row :=
  match t with
  | [] => none
  | r :: rest => if r.path = p ∧ r.chunk_index = i then some r else findRow rest p i

/-- Model of `SELECT .. WHERE path = p`, in table order. -/
def selectRows (t : Table) (p : Path) : List Row :=
  match t with
  | [] => []
  | r :: rest => if r.path = p then r :: selectRows rest p else selectRows rest p

/-- Model of `DELETE FROM git_objects WHERE path = p`. -/
def deletePath (t : Table) (p : Path) : Table :=
  match t with
  | [] => []
  | r :: rest => if r.path = p then deletePath rest p else r :: deletePath rest p

/-- Delete the rows with primary key `(p, i)`. -/
def deleteKey (t : Table) (p : Path) (i : Nat) : Table :=
  match t with
  | [] => []
  | r :: rest =>
    if r.path = p ∧ r.chunk_index = i then deleteKey rest p i
    else r :: deleteKey rest p i

/-- Model of `INSERT OR IGNORE`: insert `r` unless a row with its primary key exists. -/
def insertOrIgnore (t : Table) (r : Row) : Table :=
  match findRow t r.path r.chunk_index with
  | some _ => t
  | none => t ++ [r]

/-- Model of `INSERT OR REPLACE`: delete any row with `r`'s primary key, then insert. -/
def insertOrReplace (t : Table) (r : Row) : Table :=
  deleteKey t r.path r.chunk_index ++ [r]

/-- Model of `SELECT .. WHERE parent_path = p AND chunk_index = 0 LIMIT 1` being
non-empty (the `rmdir` child probe). -/
def hasChild (t : Table) (p : Path) : Bool :=
  t.any (fun r => decide (r.parent_path = p ∧ r.chunk_index = 0))

/-- Insertion by `chunk_index`, for modelling `ORDER BY chunk_index`. -/
def insertByChunk (r : Row) : List Row → List Row
  | [] => [r]
  | s :: rest =>
    if r.chunk_index ≤ s.chunk_index then r :: s :: rest
    else s :: insertByChunk r rest

/-- Model of `ORDER BY chunk_index ASC` via insertion sort. -/
def sortByChunk : List Row → List Row
  | [] => []
  | r :: rest => insertByChunk r (sortByChunk rest)

/-- The function `rowDataToBytes`: a blob yields its bytes, non-empty text decodes as
base64 (`none` models the decode exception), NULL or empty text yields no
bytes. -/
def rowDataToBytes : RowData → Option Bytes
  | .blob b => some b
  | .text s => if s = [] then some [] else atob64 s
  | .null => some []

/-- Decode the `data` column of each chunk row in order; fails if any legacy
text fails to decode. -/
def chunksBytes : List Row → Option (List Bytes)
  | [] => some []
  | r :: rest =>
    match rowDataToBytes r.data, chunksBytes rest with
    | some b, some bs => some (b :: bs)
    | _, _ => none

/-- The constant `CHUNK_SIZE = 1800 * 1024` (1.8 MB per chunk). -/
def CHUNK_SIZE : Nat := 1800 * 1024

/-- Model of `Math.ceil(a / b)` for naturals. -/
def ceilDiv (a b : Nat) : Nat := (a + b - 1) / b

/-- The table produced by `createSchema`: a single root directory row. -/
def initTable (now : Nat) : Table :=
  [{ path := [], chunk_index := 0, parent_path := [], data := .null,
     is_dir := 1, size := 0, mtime := now }]

/-- The method `readFile` (binary form): check chunk 0 (`ENOENT` / `EISDIR`), then read
all chunks ordered by `chunk_index`, decode each and concatenate. -/
def readFile (t : Table) (path : Path) : Except FsErr Bytes :=
  let n := normalizePath path
  match findRow t n 0 with
  | none => .error (.errno .ENOENT)
  | some meta =>
    if meta.is_dir ≠ 0 then .error (.errno .EISDIR)
    else
      match chunksBytes (sortByChunk (selectRows t n)) with
      | some chunks => .ok chunks.flatten
      | none => .error (.error "InvalidCharacterError")

/-- The chunk row written for chunk `i` of a file of content `bytes` at
normalized path `n` with parent `parent` (total size `S = bytes.length`). -/
def mkChunkRow (n parent : Path) (bytes : Bytes) (now i : Nat) : Row :=
  { path := n
    chunk_index := i
    parent_path := if i = 0 then parent else []
    data := .blob ((bytes.drop (i * CHUNK_SIZE)).take CHUNK_SIZE)
    is_dir := 0
    size := if i = 0 then bytes.length else 0
    mtime := now }

/-- The ancestor directory rows inserted (with `INSERT OR IGNORE`) by
`writeFile` for each proper ancestor of the path with segments `parts`. -/
def ancestorDirRows (parts : List Path) (now : Nat) : List Row :=
  (List.range (parts.length - 1)).map (fun i =>
    { path := joinSlash (parts.take (i + 1))
      chunk_index := 0
      parent_path := if i = 0 then [] else joinSlash (parts.take i)
      data := .null
      is_dir := 1
      size := 0
      mtime := now })

/-- The parent `parent_of(p)`: the segments before the last, joined; root for depth-1
paths. -/
def parentOf (n : Path) : Path :=
  let parts := splitOnSlash n
  if parts.length > 1 then joinSlash parts.dropLast else []

/-- The successful body of `writeFile`: insert ancestor directory rows,
delete all previous chunks of the path, and append the new chunk rows. -/
def writeRows (t : Table) (n : Path) (bytes : Bytes) (now : Nat) : Table :=
  let parts := splitOnSlash n
  let t1 := (ancestorDirRows parts now).foldl insertOrIgnore t
  let t2 := deletePath t1 n
  let count := max 1 (ceilDiv bytes.length CHUNK_SIZE)
  t2 ++ (List.range count).map (mkChunkRow n (parentOf n) bytes now)

/-- The method `writeFile`: reject the root and directories, then rewrite the chunks. -/
def writeFile (t : Table) (path : Path) (bytes : Bytes) (now : Nat) :
    Except FsErr Table :=
  let n := normalizePath path
  if n = [] then .error (.error "Cannot write to root")
  else
    match findRow t n 0 with
    | some r =>
      if r.is_dir = 1 then .error (.errno .EISDIR)
      else .ok (writeRows t n bytes now)
    | none => .ok (writeRows t n bytes now)

/-- The method `unlink`: `ENOENT` if absent, `EPERM` on a directory, else delete all
chunks. -/
def unlink (t : Table) (path : Path) : Except FsErr Table :=
  let n := normalizePath path
  match findRow t n 0 with
  | none => .error (.errno .ENOENT)
  | some r =>
    if r.is_dir = 1 then .error (.errno .EPERM)
    else .ok (deletePath t n)

/-- The method `rmdir`: reject the root, `ENOENT` if absent, `ENOTDIR` on a non-
directory, `ENOTEMPTY` if a child row exists, else delete the row. -/
def rmdir (t : Table) (path : Path) : Except FsErr Table :=
  let n := dropTrailingSlashes (normalizePath path)
  if n = [] then .error (.error "Cannot remove root directory")
  else
    match findRow t n 0 with
    | none => .error (.errno .ENOENT)
    | some r =>
      if r.is_dir ≠ 1 then .error (.errno .ENOTDIR)
      else if hasChild t n then .error (.errno .ENOTEMPTY)
      else .ok (deletePath t n)

/-- Does a chunk-0 row exist at `p` with `is_dir = 1`?  (The parent check of
`mkdir`: `!parent[0] || parent[0].is_dir !== 1`.) -/
def isDirAt (t : Table) (p : Path) : Bool :=
  match findRow t p 0 with
  | some r => r.is_dir == 1
  | none => false

/-- The method `mkdir`: no-op on the root; `ENOENT` when depth > 1 and the parent is not
an existing directory; no-op when the path is already a directory; `EEXIST`
when it exists as a file; otherwise insert one directory row. -/
def mkdir (t : Table) (path : Path) (now : Nat) : Except FsErr Table :=
  let n := dropTrailingSlashes (normalizePath path)
  if n = [] then .ok t
  else
    let parts := splitOnSlash n
    if parts.length > 1 ∧ isDirAt t (joinSlash parts.dropLast) = false then
      .error (.errno .ENOENT)
    else
      match findRow t n 0 with
      | some r => if r.is_dir = 1 then .ok t else .error (.errno .EEXIST)
      | none =>
        let parentPath := if parts.length > 1 then joinSlash parts.dropLast else []
        .ok (insertOrIgnore t
          { path := n, chunk_index := 0, parent_path := parentPath,
            data := .null, is_dir := 1, size := 0, mtime := now })

/-- The row written at the destination for one source row during `rename`. -/
def renameRow (newNorm newParent : Path) (r : Row) : Row :=
  { r with path := newNorm
           parent_path := if r.chunk_index = 0 then newParent else r.parent_path }

/-- The method `rename`: read all chunks of the source ordered by `chunk_index`
(`ENOENT` if none), upsert each at the destination, then delete the source. -/
def rename (t : Table) (oldPath newPath : Path) : Except FsErr Table :=
  let oldN := normalizePath oldPath
  let newN := normalizePath newPath
  let rows := sortByChunk (selectRows t oldN)
  if rows = [] then .error (.errno .ENOENT)
  else
    let t1 := rows.foldl (fun acc r => insertOrReplace acc (renameRow newN (parentOf newN) r)) t
    .ok (deletePath t1 oldN)

/-- The observable part of a stat result. -/
structure StatInfo where
  isDir : Bool
  size : Nat
  mtimeMs : Nat
deriving DecidableEq

/-- The method `stat`: read chunk 0 (`ENOENT` if absent); report the stored size, or for
legacy rows with stored size 0 compute it from the data column. -/
def stat (t : Table) (path : Path) : Except FsErr StatInfo :=
  let n := normalizePath path
  match findRow t n 0 with
  | none => .error (.errno .ENOENT)
  | some r =>
    let isDir := r.is_dir = 1
    let size :=
      if ¬ isDir ∧ r.size = 0 then
        match r.data with
        | .blob b => b.length
        | .text s => s.length * 3 / 4 - countTrailingEq s
        | .null => r.size
      else r.size
    .ok { isDir := r.is_dir == 1, size := size, mtimeMs := r.mtime }

/-- First-match association-list lookup (JS `Map.get`). -/
def lookupKey {α : Type} : List (Path × α) → Path → Option α
  | [], _ => none
  | (k, v) :: rest, p => if k = p then some v else lookupKey rest p

/-- Remove the entries with the given key (JS `Map.delete`). -/
def eraseKey {α : Type} : List (Path × α) → Path → List (Path × α)
  | [], _ => []
  | (k, v) :: rest, p =>
    if k = p then eraseKey rest p else (k, v) :: eraseKey rest p

/-- The MemFS state: a files map and a symlinks map. -/
structure MemSt where
  files : List (Path × Bytes)
  symlinks : List (Path × Path)
deriving DecidableEq

/-- The method `MemFS.stat`: follow a symlink to a file stat; report a file for a files
entry; report a directory when any key of either map extends the path
(prefixed by `path + "/"`, or any key at all for the root); else `ENOENT`. -/
def memStat (st : MemSt) (path : Path) (now : Nat) : Except FsErr StatInfo :=
  let n := memNormalize path
  match lookupKey st.symlinks n with
  | some target =>
    let len :=
      match lookupKey st.files (memNormalize target) with
      | some d => d.length
      | none => 0
    .ok { isDir := false, size := len, mtimeMs := now }
  | none =>
    match lookupKey st.files n with
    | some d => .ok { isDir := false, size := d.length, mtimeMs := now }
    | none =>
      let pre := if n = [] then [] else n ++ ['/']
      if st.files.any (fun kv => pre.isPrefixOf kv.1)
          ∨ st.symlinks.any (fun kv => pre.isPrefixOf kv.1) then
        .ok { isDir := true, size := 0, mtimeMs := now }
      else .error (.errno .ENOENT)

/-- The method `MemFS.unlink`: delete the normalized path from both maps; never fails. -/
def memUnlink (st : MemSt) (path : Path) : Except FsErr MemSt :=
  let n := memNormalize path
  .ok { files := eraseKey st.files n, symlinks := eraseKey st.symlinks n }

/-- One row of the v1 table: no `chunk_index`, at most one row per path. -/
structure V1Row where
  path : Path
  parent_path : Path
  data : RowData
  is_dir : Nat
  mtime : Nat
deriving DecidableEq

/-- Model of `SELECT .. FROM` the v1 table `WHERE path = p`. -/
def selectV1 (t : List V1Row) (p : Path) : List V1Row :=
  match t with
  | [] => []
  | r :: rest => if r.path = p then r :: selectV1 rest p else selectV1 rest p

/-- The copy of a v1 row into v2: `chunk_index = 0`, `size = 0`, data
preserved as-is. -/
def v1ToV2 (r : V1Row) : Row :=
  { path := r.path, chunk_index := 0, parent_path := r.parent_path,
    data := r.data, is_dir := r.is_dir, size := 0, mtime := r.mtime }

/-- The migration `migrateV1toV2`: copy every v1 row with `chunk_index = 0` and `size = 0`,
then insert the root directory row idempotently. -/
def migrateV1toV2 (vt : List V1Row) (now : Nat) : Table :=
  insertOrIgnore (vt.map v1ToV2)
    { path := [], chunk_index := 0, parent_path := [], data := .null,
      is_dir := 1, size := 0, mtime := now }

/-- The directory row inserted by `writeFile` for the `i`-th proper ancestor
of the normalized path `n`. -/
def ancRow (n : Path) (now i : Nat) : Row :=
  { path := joinSlash ((splitOnSlash n).take (i + 1)),
    chunk_index := 0,
    parent_path := if i = 0 then [] else joinSlash ((splitOnSlash n).take i),
    data := .null, is_dir := 1, size := 0, mtime := now }

/-- The primary-key invariant of `git_objects`: no two rows share
`(path, chunk_index)`. -/
def KeyUnique (t : Table) : Prop :=
  t.Pairwise (fun a c => ¬(a.path = c.path ∧ a.chunk_index = c.chunk_index))

/-- Remove the rows whose `chunk_index` equals `i`. -/
def removeCi (l : List Row) (i : Nat) : List Row :=
  match l with
  | [] => []
  | r :: rest =>
    if r.chunk_index = i then removeCi rest i else r :: removeCi rest i

/-- Remove the rows whose `chunk_index` occurs in `is`. -/
def removeCis (l : List Row) (ns : List Nat) : List Row :=
  match l with
  | [] => []
  | r :: rest =>
    if r.chunk_index ∈ ns then removeCis rest ns else r :: removeCis rest ns

-- ============================================================
-- Theorems
-- ============================================================

theorem splitOnSlash_ne_nil (p : Path) : splitOnSlash p ≠ [] := by
  cases p with
  | nil => simp [splitOnSlash]
  | cons c rest =>
    simp only [splitOnSlash]
    cases splitOnSlash rest with
    | nil => simp
    | cons h t =>
      by_cases hc : c = '/' <;> simp [hc]

/-- Splitting and re-joining is the identity. -/
theorem joinSlash_splitOnSlash (p : Path) : joinSlash (splitOnSlash p) = p := by
  induction p with
  | nil => rfl
  | cons c rest ih =>
    simp only [splitOnSlash]
    cases hs : splitOnSlash rest with
    | nil => exact absurd hs (splitOnSlash_ne_nil rest)
    | cons h t =>
      rw [hs] at ih
      by_cases hc : c = '/'
      · subst hc
        simp only [if_pos rfl, joinSlash]
        exact congrArg (List.cons '/') ih
      · simp only [if_neg hc]
        cases t with
        | nil => simpa [joinSlash] using congrArg (List.cons c) ih
        | cons t0 ts => simpa [joinSlash] using congrArg (List.cons c) ih

theorem sextetsOf_length {s : List Char} {vs : List Nat}
    (h : sextetsOf s = some vs) : vs.length = s.length := by
  induction s generalizing vs with
  | nil => simp [sextetsOf] at h; simp [← h]
  | cons c rest ih =>
    simp only [sextetsOf] at h
    cases hv : b64Val c with
    | none => rw [hv] at h; exact absurd h (by simp)
    | some v =>
      rw [hv] at h
      cases hr : sextetsOf rest with
      | none => rw [hr] at h; exact absurd h (by simp)
      | some vs' =>
        rw [hr] at h
        simp only [Option.some.injEq] at h
        subst h
        simp [ih hr]

theorem combine4_length : ∀ (vs bs : List Nat), combine4 vs = some bs →
    bs.length = vs.length * 3 / 4
  | [], bs, h => by
    simp [combine4] at h; subst h; rfl
  | [_], bs, h => by
    simp [combine4] at h
  | [a, b], bs, h => by
    simp only [combine4, Option.some.injEq] at h
    subst h; simp
  | [a, b, c], bs, h => by
    simp only [combine4, Option.some.injEq] at h
    subst h; simp
  | a :: b :: c :: d :: rest, bs, h => by
    simp only [combine4] at h
    cases ht : combine4 rest with
    | none => rw [ht] at h; exact absurd h (by simp)
    | some tail =>
      rw [ht] at h
      simp only [Option.some.injEq] at h
      subst h
      have ih := combine4_length rest tail ht
      simp only [List.length_cons, ih]
      omega

theorem countTrailingEq_le (s : List Char) : countTrailingEq s ≤ s.length := by
  calc (s.reverse.takeWhile (· = '=')).length
      ≤ s.reverse.length := (List.takeWhile_sublist _).length_le
    _ = s.length := List.length_reverse s

/-- The decoded length of a base64 string equals the `stat` legacy-size
formula `floor(len * 3 / 4) - padding`. -/
theorem atob64_length {s : List Char} {bs : List Nat}
    (h : atob64 s = some bs) :
    bs.length = s.length * 3 / 4 - countTrailingEq s := by
  unfold atob64 at h
  by_cases hp : countTrailingEq s > 2
  · rw [if_pos hp] at h; exact absurd h (by simp)
  · rw [if_neg hp] at h
    by_cases hm : countTrailingEq s > 0 ∧ s.length % 4 ≠ 0
    · rw [if_pos hm] at h; exact absurd h (by simp)
    · rw [if_neg hm] at h
      cases hsx : sextetsOf (s.take (s.length - countTrailingEq s)) with
      | none => rw [hsx] at h; exact Option.noConfusion h
      | some vs =>
        rw [hsx] at h
        have h2 : combine4 vs = some bs := h
        have hvs := sextetsOf_length hsx
        have hbs := combine4_length vs bs h2
        have hle := countTrailingEq_le s
        rw [List.length_take] at hvs
        rw [hbs, hvs]
        have : min (s.length - countTrailingEq s) s.length
            = s.length - countTrailingEq s := by omega
        rw [this]
        omega

theorem dropWhileSlash_eq_self {l : Path} (h : l.take 1 ≠ ['/']) :
    l.dropWhile (· = '/') = l := by
  cases l with
  | nil => rfl
  | cons c rest =>
    have hc : c ≠ '/' := fun he => h (by simp [he])
    simp [List.dropWhile_cons, hc]

theorem memNormalize_idem (p : Path) :
    memNormalize (memNormalize p) = memNormalize p := by
  induction p with
  | nil => rfl
  | cons c rest ih =>
    by_cases hc : c = '/'
    · subst hc; simpa [memNormalize, List.dropWhile_cons] using ih
    · simp [memNormalize, List.dropWhile_cons, hc]

/-- Claim C5 (as stated) is false: `normalizePath` strips a leading `./` only
once, so it is not idempotent on `"././a"`. -/
theorem C5_counterexample :
    normalizePath (normalizePath ['.', '/', '.', '/', 'a'])
      ≠ normalizePath ['.', '/', '.', '/', 'a'] := by
  decide

/-- Claim C5, amended: the adapter's `normalizePath` is idempotent on every
input whose normalized form is not `"."` and does not start with `"/"` or
`"./"` (on other inputs a leading `"./"` or `"/"` can survive one pass, as
for `"././a"`); it sends `"/a"`, `"a"` and `"./a"` to `"a"`.  The memfs
`normalize` is unconditionally idempotent. -/
theorem C5_normalize_amended :
    (∀ p : Path, normalizePath p ≠ ['.'] →
      (normalizePath p).take 1 ≠ ['/'] →
      (normalizePath p).take 2 ≠ ['.', '/'] →
      normalizePath (normalizePath p) = normalizePath p)
    ∧ normalizePath ['/', 'a'] = ['a']
    ∧ normalizePath ['a'] = ['a']
    ∧ normalizePath ['.', '/', 'a'] = ['a']
    ∧ (∀ p : Path, memNormalize (memNormalize p) = memNormalize p) := by
  refine ⟨?_, by decide, by decide, by decide, memNormalize_idem⟩
  intro p h1 h2 h3
  generalize normalizePath p = s at h1 h2 h3 ⊢
  have hs : s.dropWhile (· = '/') = s := dropWhileSlash_eq_self h2
  have hdot : ¬(s = ['.'] ∨ s = ['.', '/']) := by
    rintro (h | h)
    · exact h1 h
    · exact h3 (by rw [h]; rfl)
  simp only [normalizePath, hs, if_neg hdot, if_neg h3]

/-- Concrete instance of the amended C5 at `p = "a/b"`. -/
theorem C5_normalize_amended_witness :
    normalizePath (normalizePath ['a', '/', 'b']) = normalizePath ['a', '/', 'b']
    ∧ memNormalize (memNormalize ['/', 'x']) = memNormalize ['/', 'x'] :=
  ⟨C5_normalize_amended.1 ['a', '/', 'b'] (by decide) (by decide) (by decide),
   C5_normalize_amended.2.2.2.2 ['/', 'x']⟩

theorem lookupKey_eraseKey_self {α : Type} (m : List (Path × α)) (n : Path) :
    lookupKey (eraseKey m n) n = none := by
  induction m with
  | nil => rfl
  | cons kv rest ih =>
    obtain ⟨k, v⟩ := kv
    by_cases hk : k = n
    · simp [eraseKey, hk, ih]
    · simp [eraseKey, lookupKey, hk, ih]

theorem lookupKey_eraseKey_ne {α : Type} (m : List (Path × α)) (n q : Path)
    (h : q ≠ n) : lookupKey (eraseKey m n) q = lookupKey m q := by
  induction m with
  | nil => rfl
  | cons kv rest ih =>
    obtain ⟨k, v⟩ := kv
    by_cases hk : k = n
    · have hnq : ¬ n = q := fun he => h he.symm
      simp [eraseKey, lookupKey, hk, hnq, ih]
    · by_cases hq : k = q <;> simp [eraseKey, lookupKey, hk, hq, h, ih]

/-- Claim C10: `MemFS.unlink` always succeeds (also when the path is in
neither map), removes the normalized path from both the files and the
symlinks map, and leaves every other key of both maps unchanged. -/
theorem C10_mem_unlink (st : MemSt) (p : Path) :
    memUnlink st p
      = .ok { files := eraseKey st.files (memNormalize p),
              symlinks := eraseKey st.symlinks (memNormalize p) }
    ∧ (∀ st', memUnlink st p = .ok st' →
        lookupKey st'.files (memNormalize p) = none
        ∧ lookupKey st'.symlinks (memNormalize p) = none
        ∧ ∀ q, q ≠ memNormalize p →
            lookupKey st'.files q = lookupKey st.files q
            ∧ lookupKey st'.symlinks q = lookupKey st.symlinks q) := by
  refine ⟨rfl, ?_⟩
  intro st' h
  simp only [memUnlink, Except.ok.injEq] at h
  subst h
  refine ⟨lookupKey_eraseKey_self _ _, lookupKey_eraseKey_self _ _, ?_⟩
  intro q hq
  exact ⟨lookupKey_eraseKey_ne _ _ _ hq, lookupKey_eraseKey_ne _ _ _ hq⟩

/-- Concrete instance of C10: unlinking an absent path succeeds and keeps the
other keys. -/
theorem C10_mem_unlink_witness :
    memUnlink { files := [(['a'], [1])], symlinks := [] } ['b']
      = .ok { files := [(['a'], [1])], symlinks := [] }
    ∧ lookupKey (eraseKey [(['a'], ([1] : Bytes))] ['b']) ['a'] = some [1] := by
  have h := C10_mem_unlink { files := [(['a'], [1])], symlinks := [] } ['b']
  refine ⟨by rfl, ?_⟩
  exact ((h.2 _ h.1).2.2 ['a'] (by decide)).1.trans (by rfl)

/-- Claim C9 (as stated) is false: on the empty MemFS state, `stat` on the
root raises `ENOENT` instead of reporting a directory. -/
theorem C9_counterexample :
    memStat { files := [], symlinks := [] } [] 0 = .error (.errno .ENOENT) := by
  rfl

/-- Claim C9, amended: `MemFS.stat` on the root succeeds and reports a
directory in every state in which at least one entry exists in the files or
symlinks map and the root key itself is in neither map; in the state where
both maps are empty it raises `ENOENT`. -/
theorem C9_memfs_root_stat_amended (st : MemSt) (p : Path) (now : Nat)
    (hroot : memNormalize p = [])
    (hf : lookupKey st.files [] = none)
    (hs : lookupKey st.symlinks [] = none)
    (hne : st.files ≠ [] ∨ st.symlinks ≠ []) :
    memStat st p now = .ok { isDir := true, size := 0, mtimeMs := now } := by
  have hany : (st.files.any (fun kv => List.isPrefixOf [] kv.1)
      || st.symlinks.any (fun kv => List.isPrefixOf [] kv.1)) = true := by
    rcases hne with hne | hne
    · cases hfe : st.files with
      | nil => exact absurd hfe hne
      | cons kv rest => simp [List.any_cons, List.isPrefixOf]
    · cases hse : st.symlinks with
      | nil => exact absurd hse hne
      | cons kv rest => simp [List.any_cons, List.isPrefixOf]
  simp only [memStat, hroot, hf, hs, if_pos rfl]
  simp only [Bool.or_eq_true] at hany ⊢
  rw [if_pos]
  simpa using hany

/-- Concrete instance of the amended C9: a one-file state reports the root as
a directory. -/
theorem C9_memfs_root_stat_amended_witness :
    memStat { files := [(['a'], [1])], symlinks := [] } ['/'] 7
      = .ok { isDir := true, size := 0, mtimeMs := 7 } :=
  C9_memfs_root_stat_amended { files := [(['a'], [1])], symlinks := [] } ['/'] 7
    (by decide) (by decide) (by decide) (.inl (by decide))

theorem findRow_deletePath_self (t : Table) (n : Path) (i : Nat) :
    findRow (deletePath t n) n i = none := by
  induction t with
  | nil => rfl
  | cons r rest ih =>
    by_cases hr : r.path = n
    · simp [deletePath, hr, ih]
    · simp [deletePath, findRow, hr, ih]

theorem findRow_deletePath_ne (t : Table) (n p : Path) (i : Nat) (h : p ≠ n) :
    findRow (deletePath t n) p i = findRow t p i := by
  induction t with
  | nil => rfl
  | cons r rest ih =>
    by_cases hr : r.path = n
    · have hnp : ¬(n = p ∧ r.chunk_index = i) := by
        rintro ⟨h1, -⟩; exact h h1.symm
      simp [deletePath, findRow, hr, hnp, ih]
    · simp only [deletePath, if_neg hr, findRow, ih]

theorem findRow_append (a b : Table) (p : Path) (i : Nat) :
    findRow (a ++ b) p i
      = match findRow a p i with
        | some r => some r
        | none => findRow b p i := by
  induction a with
  | nil => rfl
  | cons r rest ih =>
    by_cases hr : r.path = p ∧ r.chunk_index = i
    · simp [findRow, hr]
    · simp [findRow, hr, ih]

/-- Claim C7: `unlink` raises `EPERM` on a directory and `ENOENT` on an
absent path; `rmdir` raises `ENOTDIR` on a file, `ENOTEMPTY` when a child
row (matched by `parent_path` on chunk 0) exists, `ENOENT` when absent, and
otherwise deletes the directory row so that a second `rmdir` of the same
path raises `ENOENT`. -/
theorem C7_unlink_rmdir_errors (t : Table) (p : Path) :
    (∀ r, findRow t (normalizePath p) 0 = some r → r.is_dir = 1 →
      unlink t p = .error (.errno .EPERM))
    ∧ (findRow t (normalizePath p) 0 = none →
        unlink t p = .error (.errno .ENOENT))
    ∧ (∀ r, dropTrailingSlashes (normalizePath p) ≠ [] →
        findRow t (dropTrailingSlashes (normalizePath p)) 0 = some r →
        r.is_dir ≠ 1 → rmdir t p = .error (.errno .ENOTDIR))
    ∧ (∀ r, dropTrailingSlashes (normalizePath p) ≠ [] →
        findRow t (dropTrailingSlashes (normalizePath p)) 0 = some r →
        r.is_dir = 1 → hasChild t (dropTrailingSlashes (normalizePath p)) = true →
        rmdir t p = .error (.errno .ENOTEMPTY))
    ∧ (∀ r, dropTrailingSlashes (normalizePath p) ≠ [] →
        findRow t (dropTrailingSlashes (normalizePath p)) 0 = some r →
        r.is_dir = 1 → hasChild t (dropTrailingSlashes (normalizePath p)) = false →
        rmdir t p = .ok (deletePath t (dropTrailingSlashes (normalizePath p)))
        ∧ rmdir (deletePath t (dropTrailingSlashes (normalizePath p))) p
            = .error (.errno .ENOENT)) := by
  refine ⟨?_, ?_, ?_, ?_, ?_⟩
  · intro r hr hdir
    simp [unlink, hr, hdir]
  · intro hr
    simp [unlink, hr]
  · intro r hne hr hdir
    simp [rmdir, hne, hr, hdir]
  · intro r hne hr hdir hchild
    simp [rmdir, hne, hr, hdir, hchild]
  · intro r hne hr hdir hchild
    constructor
    · simp [rmdir, hne, hr, hdir, hchild]
    · simp [rmdir, hne, findRow_deletePath_self]

/-- Concrete instances of C7, following spec scenarios 3 and 4: a directory
`x` gives `EPERM` on unlink, `rmdir` succeeds, a second `rmdir` gives
`ENOENT`; a directory `d` with child `d/f` gives `ENOTEMPTY`. -/
theorem C7_unlink_rmdir_errors_witness :
    unlink [⟨['x'], 0, [], .null, 1, 0, 5⟩] ['x'] = .error (.errno .EPERM)
    ∧ unlink ([] : Table) ['x'] = .error (.errno .ENOENT)
    ∧ rmdir [⟨['x'], 0, [], .blob [1], 0, 1, 5⟩] ['x'] = .error (.errno .ENOTDIR)
    ∧ rmdir [⟨['d'], 0, [], .null, 1, 0, 5⟩,
             ⟨['d', '/', 'f'], 0, ['d'], .blob [49], 0, 1, 5⟩] ['d']
        = .error (.errno .ENOTEMPTY)
    ∧ rmdir [⟨['x'], 0, [], .null, 1, 0, 5⟩] ['x'] = .ok []
    ∧ rmdir ([] : Table) ['x'] = .error (.errno .ENOENT) := by
  refine ⟨(C7_unlink_rmdir_errors [⟨['x'], 0, [], .null, 1, 0, 5⟩] ['x']).1 _ rfl rfl,
          (C7_unlink_rmdir_errors [] ['x']).2.1 rfl,
          (C7_unlink_rmdir_errors [⟨['x'], 0, [], .blob [1], 0, 1, 5⟩] ['x']).2.2.1
            _ (by decide) rfl (by decide),
          (C7_unlink_rmdir_errors [⟨['d'], 0, [], .null, 1, 0, 5⟩,
             ⟨['d', '/', 'f'], 0, ['d'], .blob [49], 0, 1, 5⟩] ['d']).2.2.2.1
            _ (by decide) rfl rfl (by decide),
          ?_, ?_⟩
  · exact ((C7_unlink_rmdir_errors [⟨['x'], 0, [], .null, 1, 0, 5⟩] ['x']).2.2.2.2
      _ (by decide) rfl rfl (by decide)).1
  · exact ((C7_unlink_rmdir_errors [⟨['x'], 0, [], .null, 1, 0, 5⟩] ['x']).2.2.2.2
      _ (by decide) rfl rfl (by decide)).2

theorem splitOnSlash_nil_length :
    (splitOnSlash ([] : Path)).length = 1 := rfl

/-- Claim C8: `mkdir` is a no-op on an empty normalized path; raises
`ENOENT` when the path has depth > 1 and its parent is not an existing
directory; succeeds as a no-op when the path is already a directory; raises
`EEXIST` when it exists as a file; and otherwise appends exactly one chunk-0
directory row (never creating ancestors). -/
theorem C8_mkdir (t : Table) (p : Path) (now : Nat) :
    (dropTrailingSlashes (normalizePath p) = [] → mkdir t p now = .ok t)
    ∧ ((splitOnSlash (dropTrailingSlashes (normalizePath p))).length > 1 →
        isDirAt t (joinSlash (splitOnSlash
          (dropTrailingSlashes (normalizePath p))).dropLast) = false →
        mkdir t p now = .error (.errno .ENOENT))
    ∧ (((splitOnSlash (dropTrailingSlashes (normalizePath p))).length > 1 →
        isDirAt t (joinSlash (splitOnSlash
          (dropTrailingSlashes (normalizePath p))).dropLast) = true) →
        ∀ r, findRow t (dropTrailingSlashes (normalizePath p)) 0 = some r →
        r.is_dir = 1 → mkdir t p now = .ok t)
    ∧ (dropTrailingSlashes (normalizePath p) ≠ [] →
        ((splitOnSlash (dropTrailingSlashes (normalizePath p))).length > 1 →
        isDirAt t (joinSlash (splitOnSlash
          (dropTrailingSlashes (normalizePath p))).dropLast) = true) →
        ∀ r, findRow t (dropTrailingSlashes (normalizePath p)) 0 = some r →
        r.is_dir ≠ 1 → mkdir t p now = .error (.errno .EEXIST))
    ∧ (dropTrailingSlashes (normalizePath p) ≠ [] →
        ((splitOnSlash (dropTrailingSlashes (normalizePath p))).length > 1 →
        isDirAt t (joinSlash (splitOnSlash
          (dropTrailingSlashes (normalizePath p))).dropLast) = true) →
        findRow t (dropTrailingSlashes (normalizePath p)) 0 = none →
        mkdir t p now = .ok (t ++
          [{ path := dropTrailingSlashes (normalizePath p), chunk_index := 0,
             parent_path := parentOf (dropTrailingSlashes (normalizePath p)),
             data := .null, is_dir := 1, size := 0, mtime := now }])) := by
  refine ⟨?_, ?_, ?_, ?_, ?_⟩
  · intro hn
    simp [mkdir, hn]
  · intro h1 h2
    have hn : dropTrailingSlashes (normalizePath p) ≠ [] := by
      intro he; rw [he] at h1; exact absurd h1 (by simp [splitOnSlash])
    simp only [mkdir, if_neg hn]
    rw [if_pos ⟨h1, h2⟩]
  · intro hparent r hr hdir
    by_cases hn : dropTrailingSlashes (normalizePath p) = []
    · simp [mkdir, hn]
    · have hguard : ¬((splitOnSlash (dropTrailingSlashes (normalizePath p))).length > 1
          ∧ isDirAt t (joinSlash (splitOnSlash
            (dropTrailingSlashes (normalizePath p))).dropLast) = false) := by
        rintro ⟨hg1, hg2⟩
        rw [hparent hg1] at hg2
        exact absurd hg2 (by simp)
      simp [mkdir, if_neg hn, if_neg hguard, hr, hdir]
  · intro hn hparent r hr hdir
    have hguard : ¬((splitOnSlash (dropTrailingSlashes (normalizePath p))).length > 1
        ∧ isDirAt t (joinSlash (splitOnSlash
          (dropTrailingSlashes (normalizePath p))).dropLast) = false) := by
      rintro ⟨hg1, hg2⟩
      rw [hparent hg1] at hg2
      exact absurd hg2 (by simp)
    simp only [mkdir, if_neg hn, if_neg hguard, hr, if_neg hdir]
  · intro hn hparent hr
    have hguard : ¬((splitOnSlash (dropTrailingSlashes (normalizePath p))).length > 1
        ∧ isDirAt t (joinSlash (splitOnSlash
          (dropTrailingSlashes (normalizePath p))).dropLast) = false) := by
      rintro ⟨hg1, hg2⟩
      rw [hparent hg1] at hg2
      exact absurd hg2 (by simp)
    simp only [mkdir, if_neg hn, if_neg hguard, hr]
    simp only [insertOrIgnore, hr, parentOf]

/-- Concrete instances of C8: `mkdir` at the root is a no-op, a missing
parent gives `ENOENT`, an existing directory is a no-op, an existing file
gives `EEXIST`, and a fresh single-segment path appends one directory row. -/
theorem C8_mkdir_witness :
    mkdir ([] : Table) ['/'] 3 = .ok []
    ∧ mkdir ([] : Table) ['a', '/', 'b'] 3 = .error (.errno .ENOENT)
    ∧ mkdir [⟨['x'], 0, [], .null, 1, 0, 5⟩] ['x'] 3
        = .ok [⟨['x'], 0, [], .null, 1, 0, 5⟩]
    ∧ mkdir [⟨['x'], 0, [], .blob [1], 0, 1, 5⟩] ['x'] 3 = .error (.errno .EEXIST)
    ∧ mkdir ([] : Table) ['x'] 3 = .ok [⟨['x'], 0, [], .null, 1, 0, 3⟩] := by
  refine ⟨(C8_mkdir [] ['/'] 3).1 rfl,
          (C8_mkdir [] ['a', '/', 'b'] 3).2.1 (by decide) (by decide),
          (C8_mkdir [⟨['x'], 0, [], .null, 1, 0, 5⟩] ['x'] 3).2.2.1
            (by intro h; exact absurd h (by decide)) _ rfl rfl,
          (C8_mkdir [⟨['x'], 0, [], .blob [1], 0, 1, 5⟩] ['x'] 3).2.2.2.1
            (by decide) (by intro h; exact absurd h (by decide)) _ rfl (by decide),
          ?_⟩
  exact (C8_mkdir [] ['x'] 3).2.2.2.2 (by decide)
    (by intro h; exact absurd h (by decide)) rfl

theorem selectRows_append (a b : Table) (p : Path) :
    selectRows (a ++ b) p = selectRows a p ++ selectRows b p := by
  induction a with
  | nil => rfl
  | cons r rest ih =>
    by_cases hr : r.path = p <;> simp [selectRows, hr, ih]

theorem selectRows_deletePath_self (t : Table) (n : Path) :
    selectRows (deletePath t n) n = [] := by
  induction t with
  | nil => rfl
  | cons r rest ih =>
    by_cases hr : r.path = n <;> simp [deletePath, selectRows, hr, ih]

theorem selectRows_all (l : Table) (p : Path) (h : ∀ r ∈ l, r.path = p) :
    selectRows l p = l := by
  induction l with
  | nil => rfl
  | cons r rest ih =>
    rw [selectRows, if_pos (h r (by simp)),
      ih (fun s hs => h s (by simp [hs]))]

theorem mem_selectRows {t : Table} {p : Path} {r : Row} :
    r ∈ selectRows t p ↔ r ∈ t ∧ r.path = p := by
  induction t with
  | nil => simp [selectRows]
  | cons s rest ih =>
    by_cases hs : s.path = p
    · constructor
      · intro hm
        rw [selectRows, if_pos hs] at hm
        rcases List.mem_cons.mp hm with hm | hm
        · exact ⟨by simp [hm], hm ▸ hs⟩
        · exact ⟨List.mem_cons_of_mem _ (ih.mp hm).1, (ih.mp hm).2⟩
      · rintro ⟨hm, hp⟩
        rw [selectRows, if_pos hs]
        rcases List.mem_cons.mp hm with hm | hm
        · simp [hm]
        · exact List.mem_cons_of_mem _ (ih.mpr ⟨hm, hp⟩)
    · rw [selectRows, if_neg hs, ih]
      constructor
      · rintro ⟨hm, hp⟩; exact ⟨List.mem_cons_of_mem _ hm, hp⟩
      · rintro ⟨hm, hp⟩
        rcases List.mem_cons.mp hm with hm | hm
        · exact absurd (hm ▸ hp) hs
        · exact ⟨hm, hp⟩

theorem insertByChunk_perm (r : Row) (l : List Row) :
    List.Perm (insertByChunk r l) (r :: l) := by
  induction l with
  | nil => exact List.Perm.refl _
  | cons s rest ih =>
    by_cases h : r.chunk_index ≤ s.chunk_index
    · rw [insertByChunk, if_pos h]
    · rw [insertByChunk, if_neg h]
      exact (ih.cons s).trans (List.Perm.swap r s rest)

theorem sortByChunk_perm (l : List Row) : List.Perm (sortByChunk l) l := by
  induction l with
  | nil => exact List.Perm.refl _
  | cons r rest ih =>
    exact (insertByChunk_perm r (sortByChunk rest)).trans (ih.cons r)

theorem sortByChunk_eq_self {l : List Row}
    (h : l.Pairwise (fun x y => x.chunk_index ≤ y.chunk_index)) :
    sortByChunk l = l := by
  induction l with
  | nil => rfl
  | cons r rest ih =>
    show insertByChunk r (sortByChunk rest) = r :: rest
    rw [ih h.of_cons]
    cases rest with
    | nil => rfl
    | cons s rest2 =>
      have hrs : r.chunk_index ≤ s.chunk_index :=
        (List.pairwise_cons.mp h).1 s (by simp)
      rw [insertByChunk, if_pos hrs]

theorem chunkRows_pairwise (n par : Path) (b : Bytes) (now N : Nat) :
    ((List.range N).map (mkChunkRow n par b now)).Pairwise
      (fun x y => x.chunk_index ≤ y.chunk_index) := by
  rw [List.pairwise_map]
  exact (List.pairwise_lt_range N).imp (fun h => le_of_lt h)

theorem chunksBytes_chunkRows (n par : Path) (b : Bytes) (now : Nat) :
    ∀ (l : List Nat), chunksBytes (l.map (mkChunkRow n par b now))
      = some (l.map (fun i => (b.drop (i * CHUNK_SIZE)).take CHUNK_SIZE))
  | [] => rfl
  | i :: is => by
    simp only [List.map_cons, chunksBytes]
    rw [chunksBytes_chunkRows n par b now is]
    rfl

theorem chunks_flatten : ∀ (N : Nat) (b : Bytes), b.length ≤ N * CHUNK_SIZE →
    ((List.range N).map (fun i => (b.drop (i * CHUNK_SIZE)).take CHUNK_SIZE)).flatten = b
  | 0, b, h => by
    have hb : b = [] := List.eq_nil_of_length_eq_zero (Nat.le_zero.mp (by simpa using h))
    simp [hb]
  | N + 1, b, h => by
    rw [List.range_succ_eq_map]
    simp only [List.map_cons, List.map_map, List.flatten_cons, Nat.zero_mul,
      List.drop_zero]
    have hcomp : ∀ i ∈ List.range N,
        ((fun i => (b.drop (i * CHUNK_SIZE)).take CHUNK_SIZE) ∘ Nat.succ) i
          = ((b.drop CHUNK_SIZE).drop (i * CHUNK_SIZE)).take CHUNK_SIZE := by
      intro i _
      simp only [Function.comp_apply]
      rw [List.drop_drop]
      have hsm : CHUNK_SIZE + i * CHUNK_SIZE = Nat.succ i * CHUNK_SIZE := by
        rw [Nat.succ_mul, Nat.add_comm]
      rw [hsm]
    rw [List.map_congr_left hcomp,
      chunks_flatten N (b.drop CHUNK_SIZE)
        (by simp only [List.length_drop, CHUNK_SIZE] at h ⊢; omega)]
    exact List.take_append_drop CHUNK_SIZE b

theorem ceil_bound (S : Nat) : S ≤ max 1 (ceilDiv S CHUNK_SIZE) * CHUNK_SIZE := by
  rcases Nat.eq_zero_or_pos S with h | h
  · subst h; exact Nat.zero_le _
  · have h1 : 1 ≤ ceilDiv S CHUNK_SIZE := by
      simp only [ceilDiv, CHUNK_SIZE]; omega
    rw [Nat.max_eq_right h1]
    simp only [ceilDiv, CHUNK_SIZE]
    omega

theorem writeRows_selectRows (t : Table) (n : Path) (b : Bytes) (now : Nat) :
    selectRows (writeRows t n b now) n
      = (List.range (max 1 (ceilDiv b.length CHUNK_SIZE))).map
          (mkChunkRow n (parentOf n) b now) := by
  simp only [writeRows]
  rw [selectRows_append, selectRows_deletePath_self, List.nil_append]
  refine selectRows_all _ _ ?_
  intro r hr
  obtain ⟨i, -, rfl⟩ := List.mem_map.mp hr
  rfl

theorem writeRows_findRow_zero (t : Table) (n : Path) (b : Bytes) (now : Nat) :
    findRow (writeRows t n b now) n 0
      = some (mkChunkRow n (parentOf n) b now 0) := by
  simp only [writeRows]
  rw [findRow_append, findRow_deletePath_self]
  obtain ⟨M, hM⟩ : ∃ M, max 1 (ceilDiv b.length CHUNK_SIZE) = M + 1 :=
    ⟨_, (Nat.succ_pred_eq_of_pos (le_max_left 1 _)).symm⟩
  rw [hM, List.range_succ_eq_map]
  simp only [List.map_cons, findRow]
  rw [if_pos ⟨rfl, rfl⟩]

theorem writeFile_ok {t t' : Table} {p : Path} {b : Bytes} {now : Nat}
    (h : writeFile t p b now = .ok t') :
    t' = writeRows t (normalizePath p) b now := by
  simp only [writeFile] at h
  by_cases hn : normalizePath p = []
  · rw [if_pos hn] at h; exact absurd h (by simp)
  · rw [if_neg hn] at h
    split at h
    · split at h
      · exact absurd h (by simp)
      · exact (Except.ok.inj h).symm
    · exact (Except.ok.inj h).symm

theorem readFile_writeRows (t : Table) (p : Path) (b : Bytes) (now : Nat) :
    readFile (writeRows t (normalizePath p) b now) p = .ok b := by
  simp only [readFile]
  rw [writeRows_findRow_zero, writeRows_selectRows,
    sortByChunk_eq_self (chunkRows_pairwise _ _ _ _ _),
    chunksBytes_chunkRows]
  simp only [mkChunkRow, ne_eq]
  rw [if_neg (by simp)]
  rw [chunks_flatten _ b (ceil_bound b.length)]

theorem stat_writeRows (t : Table) (p : Path) (b : Bytes) (now : Nat) :
    stat (writeRows t (normalizePath p) b now) p
      = .ok { isDir := false, size := b.length, mtimeMs := now } := by
  simp only [stat]
  rw [writeRows_findRow_zero]
  by_cases hb : b.length = 0
  · have hnil : b = [] := List.eq_nil_of_length_eq_zero hb
    subst hnil
    simp [mkChunkRow]
  · simp [mkChunkRow, hb]

/-- Claim C1: after a successful `write_file(p, b)`, `read_file(p)` returns
exactly the bytes `b` (including the empty sequence) and `stat(p)` reports
`size = len(b)` (a file, with the write's timestamp). -/
theorem C1_write_read_roundtrip {t t' : Table} {p : Path} {b : Bytes} {now : Nat}
    (h : writeFile t p b now = .ok t') :
    readFile t' p = .ok b
    ∧ stat t' p = .ok { isDir := false, size := b.length, mtimeMs := now } := by
  have ht' := writeFile_ok h
  subst ht'
  exact ⟨readFile_writeRows t p b now, stat_writeRows t p b now⟩

/-- Concrete instance of C1: writing `[7, 8]` at `"a"` on the freshly
initialized table reads back `[7, 8]` with size 2. -/
theorem C1_write_read_roundtrip_witness :
    readFile (writeRows (initTable 0) ['a'] [7, 8] 3) ['a'] = .ok [7, 8]
    ∧ stat (writeRows (initTable 0) ['a'] [7, 8] 3) ['a']
        = .ok { isDir := false, size := 2, mtimeMs := 3 } :=
  @C1_write_read_roundtrip (initTable 0) (writeRows (initTable 0) ['a'] [7, 8] 3)
    ['a'] [7, 8] 3 rfl

/-- Claim C2: after a successful `write_file(p, b)` with `len(b) > C`
(`C = 1,843,200` bytes exactly), the number of rows stored for `p` is
`ceil(len(b)/C)`; the chunk-0 row carries `parent_path = parent_of(p)` and
`size = len(b)`; every row with `chunk_index > 0` carries `parent_path = ""`
and `size = 0`; and an empty `b` leaves exactly one chunk-0 row with a
zero-length blob and `size = 0`. -/
theorem C2_chunk_layout {t t' : Table} {p : Path} {b : Bytes} {now : Nat}
    (h : writeFile t p b now = .ok t') :
    (CHUNK_SIZE < b.length →
      (selectRows t' (normalizePath p)).length = ceilDiv b.length CHUNK_SIZE)
    ∧ (∀ r ∈ selectRows t' (normalizePath p),
        (r.chunk_index = 0 →
          r.parent_path = parentOf (normalizePath p) ∧ r.size = b.length)
        ∧ (r.chunk_index > 0 → r.parent_path = [] ∧ r.size = 0))
    ∧ (b = [] → selectRows t' (normalizePath p)
        = [{ path := normalizePath p, chunk_index := 0,
             parent_path := parentOf (normalizePath p), data := .blob [],
             is_dir := 0, size := 0, mtime := now }]) := by
  have ht' := writeFile_ok h
  subst ht'
  rw [writeRows_selectRows]
  refine ⟨?_, ?_, ?_⟩
  · intro hlt
    rw [List.length_map, List.length_range]
    exact Nat.max_eq_right (by simp only [ceilDiv, CHUNK_SIZE] at hlt ⊢; omega)
  · intro r hr
    obtain ⟨i, -, rfl⟩ := List.mem_map.mp hr
    constructor
    · intro h0
      have hi : i = 0 := h0
      subst hi
      exact ⟨rfl, rfl⟩
    · intro hpos
      have hne : i ≠ 0 := Nat.pos_iff_ne_zero.mp hpos
      exact ⟨by simp [mkChunkRow, hne], by simp [mkChunkRow, hne]⟩
  · intro hb
    subst hb
    rfl

/-- Concrete instance of C2 (empty-file case): writing `[]` at `"a"` leaves
exactly one chunk-0 row with a zero-length blob and `size = 0`. -/
theorem C2_chunk_layout_witness :
    selectRows (writeRows (initTable 0) ['a'] [] 3) ['a']
      = [{ path := ['a'], chunk_index := 0, parent_path := [],
           data := .blob [], is_dir := 0, size := 0, mtime := 3 }] :=
  (@C2_chunk_layout (initTable 0) (writeRows (initTable 0) ['a'] [] 3)
    ['a'] [] 3 rfl).2.2 rfl

theorem joinSlash_append (xs ys : List Path) (hx : xs ≠ []) (hy : ys ≠ []) :
    joinSlash (xs ++ ys) = joinSlash xs ++ '/' :: joinSlash ys := by
  induction xs with
  | nil => exact absurd rfl hx
  | cons x xs' ih =>
    cases xs' with
    | nil =>
      cases ys with
      | nil => exact absurd rfl hy
      | cons y ys' => rfl
    | cons x2 xs2 =>
      have hrec := ih (by simp)
      show joinSlash (x :: ((x2 :: xs2) ++ ys)) = _
      have hys : (x2 :: xs2) ++ ys = x2 :: (xs2 ++ ys) := rfl
      rw [hys]
      show x ++ '/' :: joinSlash (x2 :: (xs2 ++ ys)) = _
      rw [← hys, hrec]
      show x ++ '/' :: (joinSlash (x2 :: xs2) ++ '/' :: joinSlash ys)
        = (x ++ '/' :: joinSlash (x2 :: xs2)) ++ '/' :: joinSlash ys
      simp [List.append_assoc]

theorem length_joinSlash_lt (xs ys : List Path) (hx : xs ≠ []) (hy : ys ≠ []) :
    (joinSlash xs).length < (joinSlash (xs ++ ys)).length := by
  rw [joinSlash_append xs ys hx hy]
  simp only [List.length_append, List.length_cons]
  omega

theorem take_ne_nil {α : Type} (l : List α) (k : Nat) (h : l ≠ []) :
    l.take (k + 1) ≠ [] := by
  cases l with
  | nil => exact absurd rfl h
  | cons x xs => simp [List.take]

theorem ancestor_lt_length (n : Path) (i : Nat)
    (hi : i + 1 < (splitOnSlash n).length) :
    (joinSlash ((splitOnSlash n).take (i + 1))).length < n.length := by
  conv_rhs => rw [← joinSlash_splitOnSlash n,
    ← List.take_append_drop (i + 1) (splitOnSlash n)]
  apply length_joinSlash_lt
  · exact take_ne_nil _ _ (splitOnSlash_ne_nil n)
  · intro hd
    have hlen := congrArg List.length hd
    simp only [List.length_drop, List.length_nil] at hlen
    omega

theorem ancestor_path_lt (n : Path) (i j : Nat) (hij : i < j)
    (hj : j + 1 ≤ (splitOnSlash n).length) :
    (joinSlash ((splitOnSlash n).take (i + 1))).length
      < (joinSlash ((splitOnSlash n).take (j + 1))).length := by
  have h1 : (splitOnSlash n).take (j + 1)
      = (splitOnSlash n).take (i + 1)
        ++ ((splitOnSlash n).take (j + 1)).drop (i + 1) := by
    conv_lhs => rw [← List.take_append_drop (i + 1) ((splitOnSlash n).take (j + 1))]
    rw [List.take_take, Nat.min_eq_left (by omega)]
  rw [h1]
  apply length_joinSlash_lt
  · exact take_ne_nil _ _ (splitOnSlash_ne_nil n)
  · intro hd
    have hlen := congrArg List.length hd
    simp only [List.length_drop, List.length_take, List.length_nil] at hlen
    omega

theorem findRow_of_path_ne (l : Table) (q : Path) (i : Nat)
    (h : ∀ r ∈ l, r.path ≠ q) : findRow l q i = none := by
  induction l with
  | nil => rfl
  | cons r rest ih =>
    rw [findRow, if_neg (fun hc => h r (by simp) hc.1)]
    exact ih (fun s hs => h s (by simp [hs]))

theorem findRow_insertOrIgnore_isSome (t : Table) (r : Row) :
    (findRow (insertOrIgnore t r) r.path r.chunk_index).isSome := by
  unfold insertOrIgnore
  cases hf : findRow t r.path r.chunk_index with
  | some s => simp [hf]
  | none => simp [findRow_append, hf, findRow]

theorem findRow_insertOrIgnore_mono {t : Table} {p : Path} {i : Nat} {x : Row}
    (h : findRow t p i = some x) (s : Row) :
    findRow (insertOrIgnore t s) p i = some x := by
  unfold insertOrIgnore
  cases hf : findRow t s.path s.chunk_index with
  | some _ => exact h
  | none => rw [findRow_append, h]

theorem foldIOI_some_mono : ∀ (rs : List Row) (t : Table) {p : Path} {i : Nat}
    {x : Row}, findRow t p i = some x →
    findRow (rs.foldl insertOrIgnore t) p i = some x
  | [], _, _, _, _, h => h
  | s :: rest, _, _, _, _, h =>
    foldIOI_some_mono rest _ (findRow_insertOrIgnore_mono h s)

theorem foldIOI_isSome : ∀ (rs : List Row) (t : Table) (r : Row), r ∈ rs →
    (findRow (rs.foldl insertOrIgnore t) r.path r.chunk_index).isSome
  | [], _, _, hm => absurd hm (List.not_mem_nil _)
  | s :: rest, t, r, hm => by
    rcases List.mem_cons.mp hm with h | h
    · subst h
      have h1 := findRow_insertOrIgnore_isSome t r
      obtain ⟨x, hx⟩ := Option.isSome_iff_exists.mp h1
      rw [List.foldl_cons, foldIOI_some_mono rest _ hx]
      rfl
    · exact foldIOI_isSome rest _ r h

theorem foldIOI_fresh : ∀ (rs : List Row) (t : Table) (r : Row), r ∈ rs →
    findRow t r.path r.chunk_index = none →
    rs.Pairwise (fun a c => ¬(a.path = c.path ∧ a.chunk_index = c.chunk_index)) →
    findRow (rs.foldl insertOrIgnore t) r.path r.chunk_index = some r
  | [], _, _, hm, _, _ => absurd hm (List.not_mem_nil _)
  | s :: rest, t, r, hm, hfresh, hdist => by
    rcases List.mem_cons.mp hm with h | h
    · subst h
      rw [List.foldl_cons]
      have hio : insertOrIgnore t r = t ++ [r] := by
        unfold insertOrIgnore; rw [hfresh]
      rw [hio]
      apply foldIOI_some_mono
      rw [findRow_append, hfresh]
      simp [findRow]
    · rw [List.foldl_cons]
      refine foldIOI_fresh rest _ r h ?_ hdist.of_cons
      unfold insertOrIgnore
      cases hf : findRow t s.path s.chunk_index with
      | some _ => exact hfresh
      | none =>
        rw [findRow_append, hfresh]
        have hk := (List.pairwise_cons.mp hdist).1 r h
        simp [findRow, hk]

theorem pairwise_range_lt_bound (k : Nat) :
    (List.range k).Pairwise (fun i j => i < j ∧ j < k) := by
  induction k with
  | zero => simp
  | succ k ih =>
    rw [List.range_succ]
    rw [List.pairwise_append]
    refine ⟨ih.imp (fun h => ⟨h.1, Nat.lt_succ_of_lt h.2⟩), by simp, ?_⟩
    intro a ha b hb
    have hbk : b = k := by simpa using hb
    rw [hbk]
    exact ⟨List.mem_range.mp ha, Nat.lt_succ_self k⟩

theorem ancestorDirRows_pairwise (n : Path) (now : Nat) :
    (ancestorDirRows (splitOnSlash n) now).Pairwise
      (fun a c => ¬(a.path = c.path ∧ a.chunk_index = c.chunk_index)) := by
  unfold ancestorDirRows
  rw [List.pairwise_map]
  apply (pairwise_range_lt_bound _).imp
  intro i j hb hk
  have hlen : (splitOnSlash n).length ≥ 1 :=
    List.length_pos.mpr (splitOnSlash_ne_nil n)
  have hlt := ancestor_path_lt n i j hb.1 (by omega)
  exact absurd (congrArg List.length hk.1) (Nat.ne_of_lt hlt)

theorem findRow_writeRows_other (t : Table) (n q : Path) (b : Bytes)
    (now i : Nat) (hq : q ≠ n) :
    findRow (writeRows t n b now) q i
      = findRow ((ancestorDirRows (splitOnSlash n) now).foldl insertOrIgnore t) q i := by
  simp only [writeRows]
  rw [findRow_append, findRow_deletePath_ne _ _ _ _ hq]
  cases hf : findRow ((ancestorDirRows (splitOnSlash n) now).foldl insertOrIgnore t) q i with
  | some x => rfl
  | none =>
    exact findRow_of_path_ne _ _ _ (fun r hr => by
      obtain ⟨j, -, rfl⟩ := List.mem_map.mp hr
      exact fun hc => hq (hc ▸ rfl))

/-- Claim C6 (as stated) is false: writing `"a"` as a file and then
`"a/b"` succeeds, but the ancestor `"a"` keeps its chunk-0 row with
`is_dir = 0` (the directory insert is `INSERT OR IGNORE`). -/
theorem C6_counterexample :
    writeFile (initTable 0) ['a'] [1] 0 = .ok (writeRows (initTable 0) ['a'] [1] 0)
    ∧ writeFile (writeRows (initTable 0) ['a'] [1] 0) ['a', '/', 'b'] [2] 0
        = .ok (writeRows (writeRows (initTable 0) ['a'] [1] 0) ['a', '/', 'b'] [2] 0)
    ∧ (findRow (writeRows (writeRows (initTable 0) ['a'] [1] 0) ['a', '/', 'b'] [2] 0)
          ['a'] 0).map Row.is_dir = some 0 :=
  ⟨rfl, rfl, rfl⟩

/-- Claim C6, amended: after a successful `write_file(p, _)`, every proper
ancestor of `p` has a chunk-0 row; that row is a fresh directory row
(`is_dir = 1`) whenever the ancestor had no chunk-0 row before the write —
an ancestor already stored as a file keeps its file row, as the ancestor
insert is `INSERT OR IGNORE`. -/
theorem C6_write_ancestors_amended {t t' : Table} {p : Path} {b : Bytes}
    {now : Nat} (h : writeFile t p b now = .ok t') (i : Nat)
    (hi : i < (splitOnSlash (normalizePath p)).length - 1) :
    (∃ r, findRow t'
        (joinSlash ((splitOnSlash (normalizePath p)).take (i + 1))) 0 = some r)
    ∧ (findRow t (joinSlash ((splitOnSlash (normalizePath p)).take (i + 1))) 0 = none →
        findRow t' (joinSlash ((splitOnSlash (normalizePath p)).take (i + 1))) 0
          = some (ancRow (normalizePath p) now i)) := by
  have ht' := writeFile_ok h
  subst ht'
  generalize normalizePath p = n at *
  have hlen : (splitOnSlash n).length ≥ 1 :=
    List.length_pos.mpr (splitOnSlash_ne_nil n)
  have hanc_ne : joinSlash ((splitOnSlash n).take (i + 1)) ≠ n := by
    intro he
    exact absurd (congrArg List.length he)
      (Nat.ne_of_lt (ancestor_lt_length n i (by omega)))
  have hmem : ancRow n now i ∈ ancestorDirRows (splitOnSlash n) now := by
    unfold ancestorDirRows ancRow
    exact List.mem_map.mpr ⟨i, List.mem_range.mpr hi, rfl⟩
  constructor
  · have hs := foldIOI_isSome (ancestorDirRows (splitOnSlash n) now) t _ hmem
    obtain ⟨x, hx⟩ := Option.isSome_iff_exists.mp hs
    refine ⟨x, ?_⟩
    rw [findRow_writeRows_other t n _ b now 0 hanc_ne]
    exact hx
  · intro hfresh
    rw [findRow_writeRows_other t n _ b now 0 hanc_ne]
    exact foldIOI_fresh (ancestorDirRows (splitOnSlash n) now) t _ hmem hfresh
      (ancestorDirRows_pairwise n now)

/-- Concrete instance of the amended C6: writing `"a/b"` on a fresh table
creates the directory row for the ancestor `"a"`. -/
theorem C6_write_ancestors_amended_witness :
    findRow (writeRows (initTable 0) ['a', '/', 'b'] [1] 0) ['a'] 0
      = some { path := ['a'], chunk_index := 0, parent_path := [],
               data := .null, is_dir := 1, size := 0, mtime := 0 } :=
  (@C6_write_ancestors_amended (initTable 0)
    (writeRows (initTable 0) ['a', '/', 'b'] [1] 0)
    ['a', '/', 'b'] [1] 0 rfl 0 (by decide)).2 rfl

theorem selectV1_mem : ∀ {vt : List V1Row} {q : Path} {v : V1Row},
    v ∈ selectV1 vt q → v ∈ vt := by
  intro vt
  induction vt with
  | nil => intro q v h; exact absurd h (List.not_mem_nil _)
  | cons r rest ih =>
    intro q v h
    by_cases hr : r.path = q
    · rw [selectV1, if_pos hr] at h
      rcases List.mem_cons.mp h with h | h
      · simp [h]
      · exact List.mem_cons_of_mem _ (ih h)
    · rw [selectV1, if_neg hr] at h
      exact List.mem_cons_of_mem _ (ih h)

theorem selectV1_path : ∀ {vt : List V1Row} {q : Path} {v : V1Row},
    v ∈ selectV1 vt q → v.path = q := by
  intro vt
  induction vt with
  | nil => intro q v h; exact absurd h (List.not_mem_nil _)
  | cons r rest ih =>
    intro q v h
    by_cases hr : r.path = q
    · rw [selectV1, if_pos hr] at h
      rcases List.mem_cons.mp h with h | h
      · exact h ▸ hr
      · exact ih h
    · rw [selectV1, if_neg hr] at h
      exact ih h

theorem findRow_isSome_of_mem {l : Table} {r : Row} {p : Path} {i : Nat}
    (hm : r ∈ l) (hp : r.path = p) (hi : r.chunk_index = i) :
    (findRow l p i).isSome := by
  induction l with
  | nil => exact absurd hm (List.not_mem_nil _)
  | cons s rest ih =>
    by_cases hs : s.path = p ∧ s.chunk_index = i
    · simp [findRow, hs]
    · rw [findRow, if_neg hs]
      rcases List.mem_cons.mp hm with h | h
      · exact absurd ⟨h ▸ hp, h ▸ hi⟩ hs
      · exact ih h

theorem selectRows_map_v1 (vt : List V1Row) (q : Path) :
    selectRows (vt.map v1ToV2) q = (selectV1 vt q).map v1ToV2 := by
  induction vt with
  | nil => rfl
  | cons r rest ih =>
    by_cases hr : r.path = q <;>
      simp [selectV1, selectRows, v1ToV2, hr, ih]

theorem findRow_selectRows (l : Table) (q : Path) (i : Nat) :
    findRow l q i = findRow (selectRows l q) q i := by
  induction l with
  | nil => rfl
  | cons r rest ih =>
    by_cases hr : r.path = q
    · by_cases hi : r.chunk_index = i
      · simp [findRow, selectRows, hr, hi]
      · have hni : ¬(r.path = q ∧ r.chunk_index = i) := fun hc => hi hc.2
        simp [findRow, selectRows, hr, hni, ih]
    · have hni : ¬(r.path = q ∧ r.chunk_index = i) := fun hc => hr hc.1
      simp [findRow, selectRows, hr, hni, ih]

theorem selectRows_migrate (vt : List V1Row) (now : Nat) (q : Path) (v : V1Row)
    (hq : selectV1 vt q = [v]) :
    selectRows (migrateV1toV2 vt now) q = [v1ToV2 v] := by
  unfold migrateV1toV2 insertOrIgnore
  cases hf : findRow (vt.map v1ToV2) [] 0 with
  | some x =>
    rw [selectRows_map_v1, hq]
    rfl
  | none =>
    rw [selectRows_append, selectRows_map_v1, hq]
    have hql : q ≠ [] := by
      intro he
      subst he
      have hv : v ∈ selectV1 vt [] := by rw [hq]; simp
      have hvp : v.path = [] := selectV1_path hv
      have hsome := findRow_isSome_of_mem
        (List.mem_map_of_mem v1ToV2 (selectV1_mem hv))
        (show (v1ToV2 v).path = [] from hvp)
        (show (v1ToV2 v).chunk_index = 0 from rfl)
      rw [hf] at hsome
      simp at hsome
    simp [selectRows, hql]

/-- Claim C3: after `init()` migrates a v1 table, every legacy row (base64
text data, unique per path) reads back as exactly the bytes its v1 `data`
column decodes to, and `stat` reports the decoded byte length as the size. -/
theorem C3_migration_legacy_read {vt : List V1Row} {q : Path} {v : V1Row}
    {s : List Char} {bs : Bytes} (now : Nat)
    (hq : selectV1 vt q = [v]) (hnorm : normalizePath q = q)
    (hdir : v.is_dir = 0) (hdata : v.data = .text s)
    (hdec : atob64 s = some bs) :
    readFile (migrateV1toV2 vt now) q = .ok bs
    ∧ stat (migrateV1toV2 vt now) q
        = .ok { isDir := false, size := bs.length, mtimeMs := v.mtime } := by
  have hsel := selectRows_migrate vt now q v hq
  have hfr : findRow (migrateV1toV2 vt now) q 0 = some (v1ToV2 v) := by
    rw [findRow_selectRows, hsel]
    have hvp : v.path = q := selectV1_path (by rw [hq]; simp)
    simp [findRow, v1ToV2, hvp]
  have hrd : rowDataToBytes (v1ToV2 v).data = some bs := by
    rw [show (v1ToV2 v).data = v.data from rfl, hdata]
    show (if s = [] then some [] else atob64 s) = some bs
    by_cases hs : s = []
    · subst hs
      have h0 : atob64 ([] : List Char) = some [] := rfl
      rw [h0] at hdec
      rw [if_pos rfl]
      exact hdec
    · rw [if_neg hs]
      exact hdec
  constructor
  · simp only [readFile, hnorm, hfr, hsel]
    rw [if_neg (by simp [v1ToV2, hdir])]
    have hsort : sortByChunk [v1ToV2 v] = [v1ToV2 v] := rfl
    rw [hsort]
    simp only [chunksBytes, hrd]
    simp
  · simp only [stat, hnorm, hfr]
    rw [if_pos ⟨by simp [v1ToV2, hdir], rfl⟩]
    have hsize : (match (v1ToV2 v).data with
        | RowData.blob b => b.length
        | RowData.text s => s.length * 3 / 4 - countTrailingEq s
        | RowData.null => (v1ToV2 v).size) = bs.length := by
      rw [show (v1ToV2 v).data = v.data from rfl, hdata]
      exact (atob64_length hdec).symm
    rw [hsize]
    have hbeq : ((v1ToV2 v).is_dir == 1) = false := by
      simp [v1ToV2, hdir]
    rw [hbeq]
    rfl

/-- Concrete instance of C3, spec scenario 5: a v1 row
`(path = "readme", data = "aGVsbG8=", is_dir = 0, mtime = 7)` migrates and
reads back as `"hello"` (bytes `[104, 101, 108, 108, 111]`) with size 5. -/
theorem C3_migration_legacy_read_witness :
    readFile (migrateV1toV2
        [{ path := ['r', 'e', 'a', 'd', 'm', 'e'], parent_path := [],
           data := .text ['a', 'G', 'V', 's', 'b', 'G', '8', '='],
           is_dir := 0, mtime := 7 }] 9)
      ['r', 'e', 'a', 'd', 'm', 'e'] = .ok [104, 101, 108, 108, 111]
    ∧ stat (migrateV1toV2
        [{ path := ['r', 'e', 'a', 'd', 'm', 'e'], parent_path := [],
           data := .text ['a', 'G', 'V', 's', 'b', 'G', '8', '='],
           is_dir := 0, mtime := 7 }] 9)
      ['r', 'e', 'a', 'd', 'm', 'e']
        = .ok { isDir := false, size := 5, mtimeMs := 7 } :=
  @C3_migration_legacy_read
    [{ path := ['r', 'e', 'a', 'd', 'm', 'e'], parent_path := [],
       data := .text ['a', 'G', 'V', 's', 'b', 'G', '8', '='],
       is_dir := 0, mtime := 7 }]
    ['r', 'e', 'a', 'd', 'm', 'e']
    { path := ['r', 'e', 'a', 'd', 'm', 'e'], parent_path := [],
      data := .text ['a', 'G', 'V', 's', 'b', 'G', '8', '='],
      is_dir := 0, mtime := 7 }
    ['a', 'G', 'V', 's', 'b', 'G', '8', '=']
    [104, 101, 108, 108, 111] 9
    rfl (by decide) rfl rfl (by decide)

theorem KeyUnique_eq {t : Table} (h : KeyUnique t) :
    ∀ {r x : Row}, r ∈ t → x ∈ t → r.path = x.path →
      r.chunk_index = x.chunk_index → r = x := by
  induction t with
  | nil => intro r x hr _ _ _; exact absurd hr (List.not_mem_nil _)
  | cons s rest ih =>
    intro r x hr hx hp hc
    have hhead := (List.pairwise_cons.mp h).1
    have htail := (List.pairwise_cons.mp h).2
    rcases List.mem_cons.mp hr with hr1 | hr1
    · rcases List.mem_cons.mp hx with hx1 | hx1
      · exact hr1.trans hx1.symm
      · exact absurd ⟨hr1 ▸ hp, hr1 ▸ hc⟩ (hhead x hx1)
    · rcases List.mem_cons.mp hx with hx1 | hx1
      · exact absurd ⟨hx1 ▸ hp.symm, hx1 ▸ hc.symm⟩ (hhead r hr1)
      · exact ih htail hr1 hx1 hp hc

theorem findRow_some_mem : ∀ {l : Table} {p : Path} {i : Nat} {r : Row},
    findRow l p i = some r → r ∈ l ∧ r.path = p ∧ r.chunk_index = i := by
  intro l
  induction l with
  | nil => intro p i r h; exact absurd h (by simp [findRow])
  | cons s rest ih =>
    intro p i r h
    rw [findRow] at h
    by_cases hs : s.path = p ∧ s.chunk_index = i
    · rw [if_pos hs] at h
      have hr : s = r := Option.some.inj h
      subst hr
      exact ⟨by simp, hs.1, hs.2⟩
    · rw [if_neg hs] at h
      obtain ⟨hm, hp, hc⟩ := ih h
      exact ⟨List.mem_cons_of_mem _ hm, hp, hc⟩

theorem selectRows_deletePath_ne (t : Table) (n q : Path) (h : q ≠ n) :
    selectRows (deletePath t n) q = selectRows t q := by
  induction t with
  | nil => rfl
  | cons r rest ih =>
    by_cases hr : r.path = n
    · have hq : ¬ r.path = q := by
        rw [hr]; exact fun he => h he.symm
      rw [deletePath, if_pos hr, selectRows, if_neg hq, ih]
    · by_cases hq : r.path = q
      · rw [deletePath, if_neg hr, selectRows, if_pos hq, selectRows,
          if_pos hq, ih]
      · rw [deletePath, if_neg hr, selectRows, if_neg hq, selectRows,
          if_neg hq, ih]

theorem selectRows_sublist (t : Table) (q : Path) :
    (selectRows t q).Sublist t := by
  induction t with
  | nil => exact List.Sublist.refl _
  | cons r rest ih =>
    by_cases hr : r.path = q
    · rw [selectRows, if_pos hr]
      exact ih.cons₂ r
    · rw [selectRows, if_neg hr]
      exact ih.cons r

theorem mem_insertByChunk {r x : Row} {l : List Row} :
    x ∈ insertByChunk r l ↔ x = r ∨ x ∈ l := by
  rw [(insertByChunk_perm r l).mem_iff]
  simp

theorem insertByChunk_sorted {l : List Row}
    (h : l.Pairwise (fun a c => a.chunk_index ≤ c.chunk_index)) (r : Row) :
    (insertByChunk r l).Pairwise (fun a c => a.chunk_index ≤ c.chunk_index) := by
  induction l with
  | nil => simp [insertByChunk]
  | cons s rest ih =>
    by_cases hc : r.chunk_index ≤ s.chunk_index
    · rw [insertByChunk, if_pos hc]
      refine List.pairwise_cons.mpr ⟨?_, h⟩
      intro x hx
      rcases List.mem_cons.mp hx with hx | hx
      · exact hx ▸ hc
      · exact le_trans hc ((List.pairwise_cons.mp h).1 x hx)
    · rw [insertByChunk, if_neg hc]
      refine List.pairwise_cons.mpr ⟨?_, ih (List.Pairwise.of_cons h)⟩
      intro x hx
      rcases mem_insertByChunk.mp hx with hx | hx
      · exact hx ▸ le_of_not_le hc
      · exact (List.pairwise_cons.mp h).1 x hx

theorem sortByChunk_sorted (l : List Row) :
    (sortByChunk l).Pairwise (fun a c => a.chunk_index ≤ c.chunk_index) := by
  induction l with
  | nil => simp [sortByChunk]
  | cons r rest ih => exact insertByChunk_sorted ih r

theorem removeCis_nil (l : List Row) : removeCis l [] = l := by
  induction l with
  | nil => rfl
  | cons r rest ih => simp [removeCis, ih]

theorem removeCis_append (a b : List Row) (ns : List Nat) :
    removeCis (a ++ b) ns = removeCis a ns ++ removeCis b ns := by
  induction a with
  | nil => rfl
  | cons r rest ih =>
    by_cases hr : r.chunk_index ∈ ns <;> simp [removeCis, hr, ih]

theorem removeCis_removeCi (l : List Row) (i : Nat) (ns : List Nat) :
    removeCis (removeCi l i) ns = removeCis l (i :: ns) := by
  induction l with
  | nil => rfl
  | cons r rest ih =>
    by_cases hi : r.chunk_index = i
    · simp [removeCi, removeCis, hi, ih]
    · by_cases hin : r.chunk_index ∈ ns <;>
        simp [removeCi, removeCis, hi, hin, ih]

theorem removeCis_eq_nil {l : List Row} {ns : List Nat}
    (h : ∀ r ∈ l, r.chunk_index ∈ ns) : removeCis l ns = [] := by
  induction l with
  | nil => rfl
  | cons r rest ih =>
    rw [removeCis, if_pos (h r (by simp))]
    exact ih (fun s hs => h s (by simp [hs]))

theorem selectRows_deleteKey_self (t : Table) (q : Path) (i : Nat) :
    selectRows (deleteKey t q i) q = removeCi (selectRows t q) i := by
  induction t with
  | nil => rfl
  | cons r rest ih =>
    by_cases hp : r.path = q
    · by_cases hc : r.chunk_index = i
      · rw [deleteKey, if_pos ⟨hp, hc⟩, selectRows, if_pos hp, removeCi,
          if_pos hc, ih]
      · rw [deleteKey, if_neg (fun hk => hc hk.2), selectRows, if_pos hp,
          selectRows, if_pos hp, removeCi, if_neg hc, ih]
    · rw [deleteKey, if_neg (fun hk => hp hk.1), selectRows, if_neg hp,
        selectRows, if_neg hp, ih]

theorem chunksBytes_map_rename (q par : Path) :
    ∀ (l : List Row),
      chunksBytes (l.map (renameRow q par)) = chunksBytes l
  | [] => rfl
  | r :: rest => by
    simp only [List.map_cons, chunksBytes]
    rw [chunksBytes_map_rename q par rest]
    rfl

theorem foldIOR_selectRows (q : Path) :
    ∀ (rs : List Row) (acc : Table),
      (∀ r ∈ rs, r.path = q) →
      (rs.map Row.chunk_index).Pairwise (· ≠ ·) →
      selectRows (rs.foldl insertOrReplace acc) q
        = removeCis (selectRows acc q) (rs.map Row.chunk_index) ++ rs
  | [], acc, _, _ => by simp [removeCis_nil]
  | r :: rest, acc, hall, hdist => by
    rw [List.map_cons] at hdist
    have hd1 := (List.pairwise_cons.mp hdist).1
    have hd2 := (List.pairwise_cons.mp hdist).2
    have hr : r.path = q := hall r (by simp)
    rw [List.foldl_cons,
      foldIOR_selectRows q rest (insertOrReplace acc r)
        (fun s hs => hall s (by simp [hs])) hd2]
    have hsel : selectRows (insertOrReplace acc r) q
        = removeCi (selectRows acc q) r.chunk_index ++ [r] := by
      unfold insertOrReplace
      rw [selectRows_append]
      congr 1
      · rw [hr, selectRows_deleteKey_self]
      · simp [selectRows, hr]
    rw [hsel, removeCis_append, removeCis_removeCi]
    have hnotin : r.chunk_index ∉ rest.map Row.chunk_index :=
      fun hmem => hd1 _ hmem rfl
    have hsingle : removeCis [r] (rest.map Row.chunk_index) = [r] := by
      simp [removeCis, hnotin]
    rw [hsingle, List.map_cons]
    simp [List.append_assoc]

theorem readFile_ok_elim {t : Table} {p : Path} {bs : Bytes}
    (h : readFile t p = .ok bs) :
    ∃ m cl, findRow t (normalizePath p) 0 = some m ∧ m.is_dir = 0
      ∧ chunksBytes (sortByChunk (selectRows t (normalizePath p))) = some cl
      ∧ bs = cl.flatten := by
  simp only [readFile] at h
  cases hf : findRow t (normalizePath p) 0 with
  | none => rw [hf] at h; exact Except.noConfusion h
  | some m =>
    rw [hf] at h
    have h2 : (if m.is_dir ≠ 0 then (.error (.errno .EISDIR) : Except FsErr Bytes)
        else match chunksBytes (sortByChunk (selectRows t (normalizePath p))) with
          | some chunks => .ok chunks.flatten
          | none => .error (.error "InvalidCharacterError")) = .ok bs := h
    by_cases hd : m.is_dir ≠ 0
    · rw [if_pos hd] at h2; exact Except.noConfusion h2
    · rw [if_neg hd] at h2
      cases hc : chunksBytes (sortByChunk (selectRows t (normalizePath p))) with
      | none => rw [hc] at h2; exact Except.noConfusion h2
      | some cl =>
        rw [hc] at h2
        exact ⟨m, cl, rfl, not_ne_iff.mp hd, rfl, (Except.ok.inj h2).symm⟩

theorem readFile_eval {t : Table} {p : Path} {x : Row} {cl : List Bytes}
    (hf : findRow t (normalizePath p) 0 = some x) (hd : x.is_dir = 0)
    (hc : chunksBytes (sortByChunk (selectRows t (normalizePath p))) = some cl) :
    readFile t p = .ok cl.flatten := by
  simp only [readFile, hf, hc]
  have hguard : ¬ (x.is_dir ≠ 0) := by simp [hd]
  rw [if_neg hguard]

theorem readFile_enoent {t : Table} {p : Path}
    (hf : findRow t (normalizePath p) 0 = none) :
    readFile t p = .error (.errno .ENOENT) := by
  simp only [readFile, hf]

/-- Claim C4 (as stated) is false: `rename(a, a)` on an existing file copies
the rows onto themselves and then deletes all rows of the path, so
`read_file` at the destination afterwards raises `ENOENT` instead of
returning the bytes. -/
theorem C4_counterexample :
    readFile [⟨['a'], 0, [], .blob [1], 0, 1, 5⟩] ['a'] = .ok [1]
    ∧ rename [⟨['a'], 0, [], .blob [1], 0, 1, 5⟩] ['a'] ['a'] = .ok []
    ∧ readFile ([] : Table) ['a'] = .error (.errno .ENOENT) :=
  ⟨rfl, rfl, rfl⟩

/-- Claim C4, amended: for an existing readable file at `a`, when the
normalized source and destination differ and every pre-existing row at the
destination's normalized path has a `chunk_index` that also occurs among the
source's rows (the per-row upsert only replaces matching chunk indices), and
the table satisfies the primary-key invariant, `rename(a, b)` succeeds,
`read_file(b)` returns exactly the bytes previously stored at `a`, and
`read_file(a)` raises `ENOENT`.  Without these provisos the claim fails:
`rename(a, a)` deletes the file, and destination chunks with indices beyond
the source's survive. -/
theorem C4_rename_amended {t : Table} {a b : Path} {bs : Bytes}
    (hKU : KeyUnique t)
    (hread : readFile t a = .ok bs)
    (hne : normalizePath a ≠ normalizePath b)
    (hshadow : ∀ x ∈ t, x.path = normalizePath b →
      ∃ y ∈ t, y.path = normalizePath a ∧ y.chunk_index = x.chunk_index) :
    ∃ t', rename t a b = .ok t'
      ∧ readFile t' b = .ok bs
      ∧ readFile t' a = .error (.errno .ENOENT) := by
  obtain ⟨m, cl, hm, hmdir, hcb, hbs⟩ := readFile_ok_elim hread
  obtain ⟨hmmem, hmpath, hmci⟩ := findRow_some_mem hm
  have hmem_sel : m ∈ selectRows t (normalizePath a) :=
    mem_selectRows.mpr ⟨hmmem, hmpath⟩
  have hmem_rows : m ∈ sortByChunk (selectRows t (normalizePath a)) :=
    ((sortByChunk_perm _).mem_iff).mpr hmem_sel
  have hrows_ne : sortByChunk (selectRows t (normalizePath a)) ≠ [] := by
    intro he
    rw [he] at hmem_rows
    exact absurd hmem_rows (List.not_mem_nil m)
  -- the copied rows
  have hfold :
      (sortByChunk (selectRows t (normalizePath a))).foldl
        (fun acc r => insertOrReplace acc
          (renameRow (normalizePath b) (parentOf (normalizePath b)) r)) t
      = ((sortByChunk (selectRows t (normalizePath a))).map
          (renameRow (normalizePath b) (parentOf (normalizePath b)))).foldl
          insertOrReplace t :=
    (List.foldl_map _ _ _ _).symm
  -- chunk indices of the copies equal those of the source rows
  have hci_map :
      ((sortByChunk (selectRows t (normalizePath a))).map
        (renameRow (normalizePath b) (parentOf (normalizePath b)))).map
          Row.chunk_index
      = (sortByChunk (selectRows t (normalizePath a))).map Row.chunk_index := by
    rw [List.map_map]
    exact List.map_congr_left (fun r _ => rfl)
  -- pairwise-distinct chunk indices on the source rows
  have hsel_pw : (selectRows t (normalizePath a)).Pairwise
      (fun x y => x.chunk_index ≠ y.chunk_index) := by
    have h1 : (selectRows t (normalizePath a)).Pairwise
        (fun x y => ¬(x.path = y.path ∧ x.chunk_index = y.chunk_index)) :=
      hKU.sublist (selectRows_sublist t (normalizePath a))
    refine h1.imp_of_mem (fun hx hy hr hc => hr ⟨?_, hc⟩)
    exact (mem_selectRows.mp hx).2.trans (mem_selectRows.mp hy).2.symm
  have hrows_pw : (sortByChunk (selectRows t (normalizePath a))).Pairwise
      (fun x y => x.chunk_index ≠ y.chunk_index) :=
    ((sortByChunk_perm _).pairwise_iff (fun h2 => Ne.symm h2)).mpr hsel_pw
  have hdist : (((sortByChunk (selectRows t (normalizePath a))).map
      (renameRow (normalizePath b) (parentOf (normalizePath b)))).map
        Row.chunk_index).Pairwise (· ≠ ·) := by
    rw [hci_map, List.pairwise_map]
    exact hrows_pw
  -- the select at the destination after the fold
  have hsel_t1 : selectRows
      (((sortByChunk (selectRows t (normalizePath a))).map
        (renameRow (normalizePath b) (parentOf (normalizePath b)))).foldl
          insertOrReplace t) (normalizePath b)
      = (sortByChunk (selectRows t (normalizePath a))).map
          (renameRow (normalizePath b) (parentOf (normalizePath b))) := by
    rw [foldIOR_selectRows (normalizePath b) _ t
      (fun r hr => by
        obtain ⟨y, -, rfl⟩ := List.mem_map.mp hr
        rfl) hdist]
    rw [removeCis_eq_nil, List.nil_append]
    intro r hr
    obtain ⟨hrt, hrp⟩ := mem_selectRows.mp hr
    obtain ⟨y, hyt, hyp, hyc⟩ := hshadow r hrt hrp
    rw [hci_map]
    have hy_sel : y ∈ selectRows t (normalizePath a) :=
      mem_selectRows.mpr ⟨hyt, hyp⟩
    have hy_rows : y ∈ sortByChunk (selectRows t (normalizePath a)) :=
      ((sortByChunk_perm _).mem_iff).mpr hy_sel
    exact hyc ▸ List.mem_map_of_mem Row.chunk_index hy_rows
  refine ⟨deletePath ((sortByChunk (selectRows t (normalizePath a))).foldl
      (fun acc r => insertOrReplace acc
        (renameRow (normalizePath b) (parentOf (normalizePath b)) r)) t)
      (normalizePath a), ?_, ?_, ?_⟩
  · simp only [rename]
    rw [if_neg hrows_ne]
  · -- read back at the destination
    have hq_ne : normalizePath b ≠ normalizePath a := fun he => hne he.symm
    have hsel_t' : selectRows
        (deletePath ((sortByChunk (selectRows t (normalizePath a))).foldl
          (fun acc r => insertOrReplace acc
            (renameRow (normalizePath b) (parentOf (normalizePath b)) r)) t)
          (normalizePath a)) (normalizePath b)
        = (sortByChunk (selectRows t (normalizePath a))).map
            (renameRow (normalizePath b) (parentOf (normalizePath b))) := by
      rw [selectRows_deletePath_ne _ _ _ hq_ne, hfold, hsel_t1]
    -- the chunk-0 row of the copies
    have hren_mem : renameRow (normalizePath b) (parentOf (normalizePath b)) m
        ∈ (sortByChunk (selectRows t (normalizePath a))).map
            (renameRow (normalizePath b) (parentOf (normalizePath b))) :=
      List.mem_map_of_mem _ hmem_rows
    have hfsome := findRow_isSome_of_mem hren_mem
      (show (renameRow (normalizePath b) (parentOf (normalizePath b)) m).path
        = normalizePath b from rfl)
      (show (renameRow (normalizePath b) (parentOf (normalizePath b)) m).chunk_index
        = 0 from hmci)
    obtain ⟨x, hx⟩ := Option.isSome_iff_exists.mp hfsome
    obtain ⟨hx_mem, hx_path, hx_ci⟩ := findRow_some_mem hx
    obtain ⟨y, hy_rows, hy_eq⟩ := List.mem_map.mp hx_mem
    have hy_sel := ((sortByChunk_perm _).mem_iff).mp hy_rows
    obtain ⟨hyt, hyp⟩ := mem_selectRows.mp hy_sel
    have hy_ci : y.chunk_index = 0 := by
      have : (renameRow (normalizePath b) (parentOf (normalizePath b)) y).chunk_index
          = y.chunk_index := rfl
      rw [hy_eq] at this
      exact this ▸ hx_ci ▸ rfl
    have hy_m : y = m :=
      KeyUnique_eq hKU hyt hmmem (hyp.trans hmpath.symm) (hy_ci.trans hmci.symm)
    have hx_dir : x.is_dir = 0 := by
      rw [← hy_eq, hy_m]
      exact hmdir
    -- sortedness of the copies
    have hcopies_sorted : ((sortByChunk (selectRows t (normalizePath a))).map
        (renameRow (normalizePath b) (parentOf (normalizePath b)))).Pairwise
          (fun u v => u.chunk_index ≤ v.chunk_index) := by
      rw [List.pairwise_map]
      exact sortByChunk_sorted (selectRows t (normalizePath a))
    -- assemble the read
    have hfr' : findRow
        (deletePath ((sortByChunk (selectRows t (normalizePath a))).foldl
          (fun acc r => insertOrReplace acc
            (renameRow (normalizePath b) (parentOf (normalizePath b)) r)) t)
          (normalizePath a)) (normalizePath b) 0 = some x := by
      rw [findRow_selectRows, hsel_t']
      exact hx
    have hchain : chunksBytes (sortByChunk (selectRows
        (deletePath ((sortByChunk (selectRows t (normalizePath a))).foldl
          (fun acc r => insertOrReplace acc
            (renameRow (normalizePath b) (parentOf (normalizePath b)) r)) t)
          (normalizePath a)) (normalizePath b))) = some cl := by
      rw [hsel_t', sortByChunk_eq_self hcopies_sorted, chunksBytes_map_rename, hcb]
    rw [hbs]
    exact readFile_eval hfr' hx_dir hchain
  · exact readFile_enoent (findRow_deletePath_self _ _ _)

/-- Concrete instance of the amended C4: renaming the single file `"a"`
(bytes `[1]`) to the fresh path `"b"` moves the bytes and leaves `ENOENT`
at the source. -/
theorem C4_rename_amended_witness :
    ∃ t', rename [⟨['a'], 0, [], .blob [1], 0, 1, 5⟩] ['a'] ['b'] = .ok t'
      ∧ readFile t' ['b'] = .ok [1]
      ∧ readFile t' ['a'] = .error (.errno .ENOENT) :=
  @C4_rename_amended [⟨['a'], 0, [], .blob [1], 0, 1, 5⟩] ['a'] ['b'] [1]
    (by simp [KeyUnique]) rfl (by decide) (by decide)

end VibeFS

